import Mathlib

/-!
Verification development for the sddms repository: a shallow embedding of the
central lock table (`sddms-central/src/lock_table.rs` and its submodules
`resource_lock.rs`, `lock_queue_opt.rs`, `deadlock_graph.rs`), the live
transaction set (`live_transaction_set.rs`), the finalization path of the
central service (`central_service.rs`), the lock-request ordering
(`sddms-services/src/shared/lock_request.rs`) and the history verifier
(`history-verifier/src/verify.rs`).

Rust `HashSet`s are modelled as `Finset`, `HashMap`s as association lists
(`List (key × value)` with `List.lookup`), `VecDeque` front/back as list
head/append, and fallible operations return explicit result types.  Rust
panics (`unwrap` on a missing map key, `unreachable!`) are modelled by
dedicated error constructors or, where a caller has just guaranteed presence
of the key, by `Option.getD []`; each such spot is noted next to the
definition.  Loops whose termination Rust obtains from mutation are embedded
with an explicit fuel argument that provably suffices, so every definition
stays kernel-computable.
-/

namespace Sddms

/-- Central transaction id: `(site_id, transaction_id)` from
`sddms-central/src/transaction_id.rs`. -/
abbrev Tid := Nat × Nat

/-- `ResourceLock` from `lock_table/resource_lock.rs`: a granted or queued
entry of a resource queue.  The Rust `owners` field is a
`HashSet<TransactionId>`; it is modelled as a duplicate-free list, with
insertion dropping already-present elements. -/
inductive ResourceLock where
  | Shared (owners : List Tid) (order : List Tid)
  | Exclusive (owner : Tid)
deriving DecidableEq

/-- Set-semantics union of two owner sets (`for owner in other { self.insert(owner) }`). -/
def unionOwners (o1 o2 : List Tid) : List Tid :=
  o1 ++ o2.filter (fun x => decide (x ∉ o1))

namespace ResourceLock

/-- `ResourceLock::shared`: fresh single-owner shared lock. -/
def shared (id : Tid) : ResourceLock := .Shared [id] [id]

/-- `ResourceLock::exclusive`. -/
def exclusive (id : Tid) : ResourceLock := .Exclusive id

/-- `ResourceLock::is_locked_by`. -/
def isLockedBy : ResourceLock → Tid → Bool
  | .Shared owners _, id => decide (id ∈ owners)
  | .Exclusive owner, id => decide (owner = id)

/-- `ResourceLock::is_locked_by_shared`. -/
def isLockedByShared : ResourceLock → Tid → Bool
  | .Shared owners _, id => decide (id ∈ owners)
  | .Exclusive _, _ => false

/-- `ResourceLock::is_locked_by_exclusive`. -/
def isLockedByExclusive : ResourceLock → Tid → Bool
  | .Shared _ _, _ => false
  | .Exclusive owner, id => decide (id = owner)

/-- `ResourceLock::is_first_locked_by`.  The Rust code unwraps
`order.first()`; a `Shared` entry always has a nonempty `order`, and on the
empty list our embedding answers `false`. -/
def isFirstLockedBy : ResourceLock → Tid → Bool
  | .Shared _ order, id => decide (order.head? = some id)
  | .Exclusive owner, id => decide (owner = id)

/-- `ResourceLock::to_exclusive`: drop `owner` from a shared entry and return
the new exclusive lock together with the residual shared lock (if any other
owners remain).  The Rust code unwraps the position of `owner` in `order`;
`List.erase` is a no-op in the (unreachable) absent case. -/
def toExclusive : ResourceLock → Tid → ResourceLock × Option ResourceLock
  | .Shared owners order, id =>
      let owners' := owners.erase id
      let order' := order.erase id
      (.Exclusive id, if owners' = [] then none else some (.Shared owners' order'))
  | .Exclusive owner, _ => (.Exclusive owner, none)

/-- `ResourceLock::try_join_with` (which dispatches to `join_two_shared` and
`try_upgrade_enqueued_lock`): attempt to coalesce two adjacent queue
entries, left entry first. -/
def tryJoinWith : ResourceLock → ResourceLock → ResourceLock × Option ResourceLock
  | .Shared o1 ord1, .Shared o2 ord2 => (.Shared (unionOwners o1 o2) (ord1 ++ ord2), none)
  | .Shared o1 ord1, .Exclusive t =>
      if isFirstLockedBy (.Shared o1 ord1) t then toExclusive (.Shared o1 ord1) t
      else (.Shared o1 ord1, some (.Exclusive t))
  | l, r => (l, some r)

end ResourceLock

/-- A resource's queue (`VecDeque<ResourceLock>`); the list head is the
queue front (the granted entry). -/
abbrev LockQueue := List ResourceLock

/-- One pass of `optimize_lock_queue_pass` from `lock_table/lock_queue_opt.rs`,
with fuel (the Rust loop consumes the queue, strictly shrinking it; fuel
`q.length` always suffices, see `optimizePass`). -/
def optimizePassFuel : Nat → LockQueue → LockQueue
  | 0, q => q
  | _+1, [] => []
  | _+1, [l] => [l]
  | fuel+1, l :: r :: rest =>
    match ResourceLock.tryJoinWith l r with
    | (nl, none) => nl :: optimizePassFuel fuel rest
    | (nl, some nr) => nl :: optimizePassFuel fuel (nr :: rest)

/-- `optimize_lock_queue_pass`: each iteration either consumes two entries
(successful join) or commits one, so `q.length` steps suffice. -/
def optimizePass (q : LockQueue) : LockQueue := optimizePassFuel q.length q

/-- The fixed-point loop of `optimize_lock_queue`: rerun the pass until its
output has the same length as its input. -/
def optimizeLoop : Nat → LockQueue → LockQueue
  | 0, q => q
  | n+1, q =>
    let q' := optimizePass q
    if q'.length = q.length then q' else optimizeLoop n q'

/-- `optimize_lock_queue`: every continuing loop iteration strictly shrinks
the queue, so `q.length + 1` iterations always suffice. -/
def optimizeLockQueue (q : LockQueue) : LockQueue := optimizeLoop (q.length + 1) q

/-- `LiveTransactionSet` from `live_transaction_set.rs`: the disjoint
`growing` and `shrinking` phase sets. -/
structure LiveTransactionSet where
  growing : Finset Tid
  shrinking : Finset Tid
deriving DecidableEq

/-- Result of a `LiveTransactionSet` operation (`Result<(), SddmsError>` in
`live_transaction_set.rs`, with the error message abstracted away). -/
inductive LtsOut where
  | ok (l : LiveTransactionSet)
  | err
deriving DecidableEq

/-- `LiveTransactionSet::is_growing`. -/
def isGrowing (l : LiveTransactionSet) (t : Tid) : Bool := decide (t ∈ l.growing)

/-- `LiveTransactionSet::is_shrinking`. -/
def isShrinking (l : LiveTransactionSet) (t : Tid) : Bool := decide (t ∈ l.shrinking)

/-- `LiveTransactionSet::transaction_exists`. -/
def transactionExists (l : LiveTransactionSet) (t : Tid) : Bool :=
  isGrowing l t || isShrinking l t

/-- `LiveTransactionSet::register_transaction`. -/
def registerTransaction (l : LiveTransactionSet) (t : Tid) : LtsOut :=
  if transactionExists l t then .err else .ok ⟨insert t l.growing, l.shrinking⟩

/-- `LiveTransactionSet::start_shrinking`. -/
def startShrinking (l : LiveTransactionSet) (t : Tid) : LtsOut :=
  if isGrowing l t then .ok ⟨l.growing.erase t, insert t l.shrinking⟩ else .err

/-- `LiveTransactionSet::remove`: the code refuses unless the transaction is
currently shrinking, and then erases it from the shrinking set only. -/
def removeTransaction (l : LiveTransactionSet) (t : Tid) : LtsOut :=
  if isShrinking l t then .ok ⟨l.growing, l.shrinking.erase t⟩ else .err

/-- `LockMode` from the generated service types (proto enum with an
`Unspecified` default), as used by `lock_request.rs`. -/
inductive LockMode where
  | Unspecified
  | Exclusive
  | Shared
deriving DecidableEq

/-- `LockRequest`: a resource name (`record`) and a lock mode. -/
structure LockRequest where
  record : String
  mode : LockMode
deriving DecidableEq

/-- `impl PartialOrd for LockRequest` (`lock_request.rs` lines 33-55): only
the modes are compared; `Unspecified` on either side yields `None`, and two
equal specified modes yield `Some(Equal)`. -/
def partialCmp (a b : LockRequest) : Option Ordering :=
  match a.mode with
  | .Unspecified => none
  | .Exclusive =>
    match b.mode with
    | .Unspecified => none
    | .Exclusive => some .eq
    | .Shared => some .gt
  | .Shared =>
    match b.mode with
    | .Unspecified => none
    | .Exclusive => some .lt
    | .Shared => some .eq

/-- `impl Ord for LockRequest` (`lock_request.rs` lines 57-64): fall back to
comparing the `record` strings only when `partial_cmp` is `None`. -/
def cmpLR (a b : LockRequest) : Ordering :=
  match partialCmp a b with
  | none => compare a.record b.record
  | some o => o

/-- The lock table's resource map (`HashMap<String, VecDeque<ResourceLock>>`)
as an association list. -/
abbrev RMap := List (String × LockQueue)

/-- In-place update of a resource's queue (Rust mutates through `get_mut`). -/
def setQueue (m : RMap) (r : String) (q : LockQueue) : RMap :=
  m.map (fun p => if p.1 = r then (p.1, q) else p)

/-- `LockTable::add_new_resource`: insert an empty queue if absent. -/
def addNewResource (m : RMap) (r : String) : RMap :=
  if (m.lookup r).isSome then m else (r, []) :: m

/-- The head-grant test used by `LockTable::lock_set`:
`front().is_some_and(|f| f.is_locked_by(t))`. -/
def headOwnedBy (q : LockQueue) (t : Tid) : Bool :=
  match q with
  | [] => false
  | front :: _ => front.isLockedBy t

/-- The set of resources whose queue head is locked by `t`
(`LockTable::lock_set`, without the existence check). -/
def lockSetOf (m : RMap) (t : Tid) : List String :=
  (m.filter (fun p => headOwnedBy p.2 t)).map Prod.fst

/-- Wait-for graph of `lock_table/deadlock_graph.rs`: adjacency map
`HashMap<&TransactionId, HashSet<&TransactionId>>` as an association list. -/
abbrev WGraph := List (Tid × List Tid)

/-- Keys of the graph, i.e. every transaction that was added as a node. -/
def nodeList (g : WGraph) : List Tid := g.map Prod.fst

/-- `DeadlockGraph::add_transaction`. -/
def addNode (g : WGraph) (t : Tid) : WGraph :=
  if (g.lookup t).isSome then g else (t, []) :: g

/-- Insertion into a neighbour set (`HashSet::insert`): append if absent. -/
def insertNeighbor (d : Tid) (ns : List Tid) : List Tid :=
  if d ∈ ns then ns else ns ++ [d]

/-- The mutation step of `insert_edge`: add `dst` to `src`'s neighbour set. -/
def addEdgeAux (g : WGraph) (src dst : Tid) : WGraph :=
  g.map (fun p => if p.1 = src then (p.1, insertNeighbor dst p.2) else p)

/-- `DeadlockGraph::insert_edge`: ensure both endpoints exist, then record
the edge. -/
def insertEdge (g : WGraph) (src dst : Tid) : WGraph :=
  addEdgeAux (addNode (addNode g src) dst) src dst

/-- `ResourceLock::owners` as a list. -/
def lockOwners : ResourceLock → List Tid
  | .Shared owners _ => owners
  | .Exclusive owner => [owner]

/-- The per-queue part of `DeadlockGraph::construct`: walk the queue keeping
the previous entry's owners; every owner of the current entry gets an edge to
every owner of the previous entry, and all owners become nodes. -/
def graphAddQueue : WGraph → Option (List Tid) → LockQueue → WGraph
  | g, _, [] => g
  | g, last, lock :: rest =>
    let owners := lockOwners lock
    let outgoing := last.getD []
    let g1 := (owners ++ outgoing).foldl addNode g
    let g2 := owners.foldl (fun ga o => outgoing.foldl (fun gb lo => insertEdge gb o lo) ga) g1
    graphAddQueue g2 (some owners) rest

/-- `DeadlockGraph::construct`: build the wait-for graph from every queue. -/
def construct (m : RMap) : WGraph :=
  m.foldl (fun g p => graphAddQueue g none p.2) []

/-- Short-circuiting neighbour loop of `detect_cycle_with_starting_point`:
fold the visitor over the neighbour list, stopping at the first `true`. -/
def dfsStep (f : Tid → Finset Tid → Bool × Finset Tid) :
    List Tid → Bool × Finset Tid → Bool × Finset Tid
  | [], acc => acc
  | n :: rest, acc => dfsStep f rest (if acc.1 then acc else f n acc.2)

/-- `DeadlockGraph::detect_cycle_with_starting_point`: recursion-stack DFS.
The `visited` set is threaded through (Rust mutates it in place); the
recursion stack `stk` is passed downwards (Rust's balanced insert/remove).
The Rust recursion is bounded by the number of unvisited nodes; the fuel-0
branch is unreachable whenever `fuel` exceeds that number. -/
def dfsVisit (g : WGraph) : Nat → Tid → Finset Tid → Finset Tid → Bool × Finset Tid
  | 0, _, visited, _ => (true, visited)
  | fuel+1, current, visited, stk =>
    if current ∈ stk then (true, visited)
    else if current ∈ visited then (false, visited)
    else
      dfsStep (fun n v => dfsVisit g fuel n v (insert current stk))
        ((g.lookup current).getD []) (false, insert current visited)

/-- Fuel that always suffices for `dfsVisit`: more than the node count. -/
def dfsFuel (g : WGraph) : Nat := (nodeList g).length + 1

/-- The node loop of `DeadlockGraph::has_cycle`: start a DFS at every not yet
visited node. -/
def dfsTop (g : WGraph) : List Tid → Finset Tid → Bool
  | [], _ => false
  | n :: rest, visited =>
    if n ∈ visited then dfsTop g rest visited
    else
      match dfsVisit g (dfsFuel g) n visited ∅ with
      | (true, _) => true
      | (false, v') => dfsTop g rest v'

/-- `DeadlockGraph::has_cycle`. -/
def hasCycle (g : WGraph) : Bool := dfsTop g (nodeList g) ∅

/-- The owners of every entry currently in `r`'s queue
(`would_cause_deadlock`'s `resource_queue_waiters`).  The Rust code unwraps
`lock_queues.get(resource)`; callers guarantee the resource exists, and the
absent case is modelled by the empty queue. -/
def queueWaiters (m : RMap) (r : String) : List Tid :=
  ((m.lookup r).getD []).foldl (fun acc l => acc ++ lockOwners l) []

/-- The graph inspected by `would_cause_deadlock`: the constructed wait-for
graph plus the hypothetical edges `t → v` for every current owner `v` of any
entry in `r`'s queue. -/
def hypGraph (m : RMap) (t : Tid) (r : String) : WGraph :=
  (queueWaiters m r).foldl (fun g w => insertEdge g t w) (construct m)

/-- `DeadlockGraph::would_cause_deadlock` as composed by
`LockTable::detect_deadlock`: add the hypothetical edges, then run the DFS
cycle detection over the whole graph. -/
def wouldCauseDeadlock (m : RMap) (t : Tid) (r : String) : Bool :=
  hasCycle (hypGraph m t r)

/-- `LockTable::has_lock_already`.  The queue is fetched after
`add_new_resource`, so the Rust `unwrap` cannot fail; `none` models the
`unreachable!()` panic on an `Unspecified` mode with a nonempty queue. -/
def hasLockAlready (m : RMap) (t : Tid) (r : String) (mode : LockMode) : Option Bool :=
  match (m.lookup r).getD [] with
  | [] => some false
  | front :: _ =>
    match mode with
    | .Exclusive => some (front.isLockedByExclusive t)
    | .Shared => some (front.isLockedBy t)
    | .Unspecified => none

/-- The queue transformation of `LockTable::attempt_lock_promotion`: pop the
front; if the requested mode is exclusive and the front is a shared lock
held by `t`, split it with `to_exclusive`, push the residual shared lock
back to the front (when present) and then push the new exclusive lock to the
front; otherwise restore the queue. -/
def promoteFront (t : Tid) (mode : LockMode) (q : LockQueue) : Bool × LockQueue :=
  match q with
  | [] => (false, [])
  | front :: rest =>
    if decide (mode = .Exclusive) && front.isLockedByShared t then
      match front.toExclusive t with
      | (ex, some sh) => (true, ex :: sh :: rest)
      | (ex, none) => (true, ex :: rest)
    else (false, front :: rest)

/-- `LockTable::attempt_lock_promotion` on the resource map. -/
def attemptLockPromotion (m : RMap) (t : Tid) (r : String) (mode : LockMode) :
    Bool × RMap :=
  match promoteFront t mode ((m.lookup r).getD []) with
  | (true, q') => (true, setQueue m r q')
  | (false, _) => (false, m)

/-- `LockTable::enqueue_resource`: push a fresh lock at the tail, then run
queue coalescing.  The caller has established that the resource exists and
that the mode is specified. -/
def enqueueResource (m : RMap) (t : Tid) (r : String) (mode : LockMode) : RMap :=
  let q := (m.lookup r).getD []
  let lock : ResourceLock :=
    match mode with
    | .Exclusive => ResourceLock.exclusive t
    | _ => ResourceLock.shared t
  setQueue m r (optimizeLockQueue (q ++ [lock]))

/-- Outcome of processing one request inside `LockTable::acquire_locks`'s
loop; `panicked` models the `unreachable!()`/`panic!` paths for an
`Unspecified` mode. -/
inductive StepOut where
  | proceed (m : RMap)
  | deadlocked (m : RMap)
  | panicked
deriving DecidableEq

/-- One iteration of the request loop in `LockTable::acquire_locks` (lines
161-205): ensure the resource, skip when the lock is already held, try an
in-place promotion, refuse on deadlock, otherwise enqueue. -/
def acquireStep (t : Tid) (req : LockRequest) (m0 : RMap) : StepOut :=
  let r := req.record
  let m := addNewResource m0 r
  match hasLockAlready m t r req.mode with
  | none => .panicked
  | some true => .proceed m
  | some false =>
    match attemptLockPromotion m t r req.mode with
    | (true, m') => .proceed m'
    | (false, _) =>
      if wouldCauseDeadlock m t r then .deadlocked m
      else
        match req.mode with
        | .Unspecified => .panicked
        | .Exclusive => .proceed (enqueueResource m t r .Exclusive)
        | .Shared => .proceed (enqueueResource m t r .Shared)

/-- Outcome of the whole request loop. -/
inductive BatchOut where
  | ok (m : RMap)
  | deadlocked (r : String) (m : RMap)
  | panicked
deriving DecidableEq

/-- The request loop of `LockTable::acquire_locks`: process the sorted
requests in order, returning `Deadlocked` (with the current map) as soon as
one request would close a wait-for cycle. -/
def processRequests (t : Tid) : List LockRequest → RMap → BatchOut
  | [], m => .ok m
  | req :: rest, m =>
    match acquireStep t req m with
    | .proceed m' => processRequests t rest m'
    | .deadlocked m' => .deadlocked req.record m'
    | .panicked => .panicked

/-- Central controller state relevant to the lock table: the resource queue
map and the live transaction set. -/
structure CentralState where
  resources : RMap
  live : LiveTransactionSet
deriving DecidableEq

/-- `requests.sort()` in `acquire_locks`: a stable sort by the `Ord`
implementation of `LockRequest`. -/
def sortRequests (reqs : List LockRequest) : List LockRequest :=
  reqs.mergeSort (fun a b => decide (cmpLR a b ≠ .gt))

/-- Result of `LockTable::acquire_locks`.  The final await-until-granted loop
only reads state, so the successful case is reported as `acquired` with the
map produced by the request loop. -/
inductive AcqOut where
  | notGrowing
  | acquired (s : CentralState)
  | deadlocked (r : String) (s : CentralState)
  | panicked
deriving DecidableEq

/-- `LockTable::acquire_locks`: refuse when the transaction is not growing,
else sort the requests and run the request loop. -/
def acquireLocks (t : Tid) (reqs : List LockRequest) (s : CentralState) : AcqOut :=
  if isGrowing s.live t then
    match processRequests t (sortRequests reqs) s.resources with
    | .ok m => .acquired ⟨m, s.live⟩
    | .deadlocked r m => .deadlocked r ⟨m, s.live⟩
    | .panicked => .panicked
  else .notGrowing

/-- Errors of the release path.  `missingResource` models the Rust panic of
`resources_table.get_mut(resource).unwrap()` on an absent key. -/
inductive RelErr where
  | notGrowing
  | notOwned
  | missingResource
deriving DecidableEq

/-- Result of releasing one resource. -/
inductive RelOut where
  | ok (m : RMap)
  | err (e : RelErr)
deriving DecidableEq

/-- The body of `LockTable::release_lock_internal` for one resource: the
queue head must reference `t`; a shared head drops `t` from its owners and
order (removing the entry when no owner remains), an exclusive head is
popped. -/
def releaseOne (m : RMap) (t : Tid) (r : String) : RelOut :=
  match m.lookup r with
  | none => .err .missingResource
  | some [] => .err .notOwned
  | some (front :: rest) =>
    if front.isLockedBy t then
      match front with
      | .Shared owners order =>
        let owners' := owners.erase t
        let order' := order.erase t
        .ok (setQueue m r (if owners' = [] then rest else .Shared owners' order' :: rest))
      | .Exclusive _ => .ok (setQueue m r rest)
    else .err .notOwned

/-- `LockTable::release_lock`: first transition the transaction to the
shrinking phase when necessary (strict 2PL; an error here aborts before any
queue change), then release the single resource. -/
def ltReleaseLock (t : Tid) (r : String) (s : CentralState) :
    Option RelErr × CentralState :=
  match (if isShrinking s.live t then .ok s.live else startShrinking s.live t) with
  | .err => (some .notGrowing, s)
  | .ok live' =>
    match releaseOne s.resources t r with
    | .ok m' => (none, ⟨m', live'⟩)
    | .err e => (some e, ⟨s.resources, live'⟩)

/-- The release loop of `CentralService::release_all_locks`: release each
held resource through `LockTable::release_lock`, stopping at the first
error (mutations made so far are kept). -/
def releaseHeldLoop (t : Tid) : List String → CentralState → Bool × CentralState
  | [], s => (true, s)
  | r :: rs, s =>
    match ltReleaseLock t r s with
    | (none, s') => releaseHeldLoop t rs s'
    | (some _, s') => (false, s')

/-- `CentralService::finalize_transaction`: release every currently held
(queue-head) lock, then `LockTable::finalize_transaction`, which only calls
`LiveTransactionSet::remove`.  The boolean is the success of the response. -/
def serviceFinalize (t : Tid) (s : CentralState) : Bool × CentralState :=
  if transactionExists s.live t then
    match releaseHeldLoop t (lockSetOf s.resources t) s with
    | (false, s1) => (false, s1)
    | (true, s1) =>
      match removeTransaction s1.live t with
      | .ok live' => (true, ⟨s1.resources, live'⟩)
      | .err => (false, s1)
  else (false, s)

/-- Specification-side edge relation of a wait-for graph: `v` is among the
recorded neighbours of `u`. -/
def EdgeP (g : WGraph) (u v : Tid) : Prop := v ∈ (g.lookup u).getD []

/-- Specification-side cycle existence: some node lies on a directed cycle. -/
def GCycle (g : WGraph) : Prop := ∃ v, Relation.TransGen (EdgeP g) v v

/-- A node that can reach a directed cycle. -/
def ReachesCycle (g : WGraph) (x : Tid) : Prop :=
  ∃ v, Relation.ReflTransGen (EdgeP g) x v ∧ Relation.TransGen (EdgeP g) v v

/-- Well-formedness of an adjacency map: every edge target is a node.  All
graphs built by `construct`/`insertEdge` satisfy this. -/
def GraphWF (g : WGraph) : Prop := ∀ u v, EdgeP g u v → (g.lookup v).isSome = true

/-- Finset of graph nodes. -/
def nodesF (g : WGraph) : Finset Tid := (nodeList g).toFinset

/-- Irreducibility of an adjacent queue pair: `try_join_with` leaves the pair
exactly in place. -/
def IrredPair (a b : ResourceLock) : Prop :=
  ResourceLock.tryJoinWith a b = (a, some b)

/-- Concrete queue map of the spec's deadlock scenario: (1,1) holds X,
(1,2) holds Y, and (1,2) is already queued behind (1,1) on X; (1,1) is about
to request Y. -/
def mDead : RMap :=
  [("X", [.Exclusive (1,1), .Exclusive (1,2)]), ("Y", [.Exclusive (1,2)])]

/-- Concrete queue map whose wait-for graph already contains a cycle between
(1,1) and (1,2) while resource R is free; used to separate "some cycle"
from "a cycle involving the requester". -/
def mC5 : RMap :=
  [("X", [.Exclusive (1,1), .Exclusive (1,2)]),
   ("Y", [.Exclusive (1,2), .Exclusive (1,1)]),
   ("R", [])]

end Sddms

namespace Sddms.Verifier

/-- Verifier transaction id `(site, client, txn)` from
`history-verifier/src/transaction_id.rs`. -/
abbrev VTid := Nat × Nat × Nat

/-- `ActionKind` from `history_file_parser/action.rs` (read and write sets as
sets of table names). -/
inductive VKind where
  | beginTxn
  | commitTxn
  | rollbackTxn
  | query (readSet writeSet : Finset String)
deriving DecidableEq

/-- A parsed history action; the timestamp is dropped because the verifier
consumes the already chronologically sorted list. -/
structure VAction where
  siteId : Nat
  clientId : Nat
  txnId : Nat
  kind : VKind
deriving DecidableEq

/-- `TransactionId::from(&Action)`. -/
def tidOf (a : VAction) : VTid := (a.siteId, a.clientId, a.txnId)

/-- `TableSets` from `verify.rs`: accumulated read and write sets of a live
transaction. -/
structure TableSets where
  rd : Finset String
  wr : Finset String
deriving DecidableEq

/-- `TableSets::conflicts_with_other`: read/write, write/read or write/write
overlap. -/
def conflictsWithOther (s o : TableSets) : Bool :=
  if (s.rd ∩ o.wr) ≠ ∅ then true
  else if (s.wr ∩ o.rd) ≠ ∅ then true
  else if (s.wr ∩ o.wr) ≠ ∅ then true
  else false

/-- The `live_transactions` map (`HashMap<TransactionId, TableSets>`). -/
abbrev LiveMap := List (VTid × TableSets)

/-- `HashMap::insert`: replace any previous binding. -/
def upsert (m : LiveMap) (k : VTid) (v : TableSets) : LiveMap :=
  (k, v) :: m.filter (fun p => decide (p.1 ≠ k))

/-- `LiveTransactions::unregister_transaction`. -/
def removeLive (m : LiveMap) (k : VTid) : LiveMap :=
  m.filter (fun p => decide (p.1 ≠ k))

/-- `LiveTransactions::has_transaction`. -/
def hasTid (m : LiveMap) (k : VTid) : Bool := (m.lookup k).isSome

/-- `LiveTransactions::update_sets`: union the new read and write sets into
the transaction's accumulated sets. -/
def updateSets (m : LiveMap) (k : VTid) (rs ws : Finset String) : LiveMap :=
  m.map (fun p => if p.1 = k then (p.1, ⟨p.2.rd ∪ rs, p.2.wr ∪ ws⟩) else p)

/-- `LiveTransactions::has_conflicts`, reduced to its emptiness: does any
pair of distinct live transactions have conflicting table sets?  (The Rust
code deduplicates unordered pairs only to avoid duplicate diagnoses;
`conflicts_with_other` is symmetric, so pair orientation is immaterial for
whether the conflict list is empty.) -/
def hasConflictsB (m : LiveMap) : Bool :=
  m.any fun p => m.any fun q => decide (p.1 ≠ q.1) && conflictsWithOther p.2 q.2

/-- One iteration of the action loop in `verify_action_history` (lines
141-174): update the live map according to the action kind, check for
conflicts, and unregister a single-statement transaction afterwards.
Returns the live map for the next iteration and whether this step reported
conflicts. -/
def verifyStep (m : LiveMap) (a : VAction) : LiveMap × Bool :=
  let t := tidOf a
  match a.kind with
  | .beginTxn =>
    let m1 := upsert m t ⟨∅, ∅⟩
    (m1, hasConflictsB m1)
  | .commitTxn =>
    let m1 := removeLive m t
    (m1, hasConflictsB m1)
  | .rollbackTxn =>
    let m1 := removeLive m t
    (m1, hasConflictsB m1)
  | .query rs ws =>
    if hasTid m t then
      let m1 := updateSets m t rs ws
      (m1, hasConflictsB m1)
    else
      let m1 := upsert m t ⟨rs, ws⟩
      (removeLive m1 t, hasConflictsB m1)

/-- The action loop: true iff some step reported conflicts
(`verify_action_history` returns `Err` iff its accumulated conflict list is
nonempty). -/
def verifyGo (m : LiveMap) : List VAction → Bool
  | [] => false
  | a :: rest =>
    let s := verifyStep m a
    s.2 || verifyGo s.1 rest

/-- `verify_action_history` on a parsed, timestamp-sorted history: does the
verifier report a serializability violation? -/
def reportsViolation (h : List VAction) : Bool := verifyGo [] h

/-- The live map reached after processing a prefix of the history. -/
def liveAfter (m : LiveMap) (h : List VAction) : LiveMap :=
  h.foldl (fun acc a => (verifyStep acc a).1) m

/-- Modelled from the spec: directional conflict between two query actions
(`a` earlier, `b` later) — read/write, write/read or write/write overlap of
their table sets.  Non-query actions conflict with nothing. -/
def isQueryConflict (a b : VAction) : Bool :=
  match a.kind, b.kind with
  | .query ra wa, .query rb wb =>
    decide ((ra ∩ wb) ≠ ∅) || decide ((wa ∩ rb) ≠ ∅) || decide ((wa ∩ wb) ≠ ∅)
  | _, _ => false

/-- All ordered pairs `(earlier, later)` of a list. -/
def ordPairs : List VAction → List (VAction × VAction)
  | [] => []
  | a :: rest => rest.map (fun b => (a, b)) ++ ordPairs rest

/-- Modelled from the spec: the conflict-graph edge relation of claim C1 —
there is an edge `u → w` whenever an action of `u` precedes a conflicting
action of `w` in the sorted log and `u ≠ w`. -/
def specEdgeB (h : List VAction) (u w : VTid) : Bool :=
  (ordPairs h).any fun p =>
    decide (tidOf p.1 = u) && decide (tidOf p.2 = w) && decide (u ≠ w) &&
      isQueryConflict p.1 p.2

/-- The live map against which a step's conflict check runs: the map after
the action's own update but before the single-statement unregistration
(`verifyStep`'s intermediate `m1`). -/
def checkedLive (m : LiveMap) (a : VAction) : LiveMap :=
  let t := tidOf a
  match a.kind with
  | .beginTxn => upsert m t ⟨∅, ∅⟩
  | .commitTxn => removeLive m t
  | .rollbackTxn => removeLive m t
  | .query rs ws => if hasTid m t then updateSets m t rs ws else upsert m t ⟨rs, ws⟩

/-- Concrete history: t1 = (1,1,1) begins and reads R; t2 = (1,2,2) begins
and writes R.  Its conflict graph has the single edge t1 → t2 and is
acyclic. -/
def aB1 : VAction := ⟨1, 1, 1, .beginTxn⟩

/-- Query of t1 reading table R. -/
def aQ1 : VAction := ⟨1, 1, 1, .query {"R"} ∅⟩

/-- Begin of t2. -/
def aB2 : VAction := ⟨1, 2, 2, .beginTxn⟩

/-- Query of t2 writing table R. -/
def aQ2 : VAction := ⟨1, 2, 2, .query ∅ {"R"}⟩

/-- The four-action acyclic history used against claim C1. -/
def hC1 : List VAction := [aB1, aQ1, aB2, aQ2]

end Sddms.Verifier

namespace Sddms

theorem optimizePassFuel_length_le (f : Nat) (q : LockQueue) :
    (optimizePassFuel f q).length ≤ q.length := by
  induction f, q using optimizePassFuel.induct with
  | case1 q => simp [optimizePassFuel]
  | case2 f => simp [optimizePassFuel]
  | case3 f l => simp [optimizePassFuel]
  | case4 f l r rest nl h ih =>
    simp only [optimizePassFuel, h, List.length_cons]
    simp at ih ⊢
    omega
  | case5 f l r rest nl nr h ih =>
    simp only [optimizePassFuel, h, List.length_cons]
    simp at ih ⊢
    omega

theorem tryJoin_exclusive_left (o : Tid) (r : ResourceLock) :
    ResourceLock.tryJoinWith (.Exclusive o) r = (.Exclusive o, some r) := by
  cases r <;> rfl

theorem optimizePassFuel_head_exclusive (f : Nat) (t : Tid) (rest : LockQueue) :
    (optimizePassFuel f (.Exclusive t :: rest)).head? = some (.Exclusive t) := by
  cases f with
  | zero => rfl
  | succ f =>
    cases rest with
    | nil => rfl
    | cons r rs => simp [optimizePassFuel, tryJoin_exclusive_left]

theorem tryJoin_some_cases {l r nl nr : ResourceLock}
    (h : ResourceLock.tryJoinWith l r = (nl, some nr)) :
    (∃ o, nl = .Exclusive o) ∨
      (nl = l ∧ nr = r ∧ ∃ ow ord t, l = .Shared ow ord ∧ r = .Exclusive t ∧
        ResourceLock.isFirstLockedBy l t = false) := by
  cases l with
  | Shared ow ord =>
    cases r with
    | Shared ow2 ord2 => simp [ResourceLock.tryJoinWith] at h
    | Exclusive t =>
      by_cases hf : ResourceLock.isFirstLockedBy (.Shared ow ord) t
      · simp [ResourceLock.tryJoinWith, hf, ResourceLock.toExclusive] at h
        exact Or.inl ⟨t, h.1.symm⟩
      · simp [ResourceLock.tryJoinWith, hf] at h
        refine Or.inr ⟨h.1.symm, h.2.symm, ow, ord, t, rfl, rfl, ?_⟩
        simpa using hf
  | Exclusive o =>
    rw [tryJoin_exclusive_left] at h
    exact Or.inl ⟨o, (Prod.mk.injEq _ _ _ _ ▸ h).1.symm⟩

theorem chain_of_pass_length_eq (f : Nat) (q : LockQueue) (hf : q.length ≤ f)
    (hlen : (optimizePassFuel f q).length = q.length) :
    List.Chain' IrredPair (optimizePassFuel f q) := by
  induction f, q using optimizePassFuel.induct with
  | case1 q =>
    have : q = [] := List.length_eq_zero.mp (Nat.le_zero.mp hf)
    subst this
    simp [optimizePassFuel]
  | case2 f => simp [optimizePassFuel]
  | case3 f l => simp [optimizePassFuel]
  | case4 f l r rest nl h ih =>
    exfalso
    have hle := optimizePassFuel_length_le f rest
    simp only [optimizePassFuel, h, List.length_cons] at hlen
    omega
  | case5 f l r rest nl nr h ih =>
    simp only [optimizePassFuel, h, List.length_cons] at hlen ⊢
    simp only [List.length_cons] at hf
    have hf' : (nr :: rest).length ≤ f := by simp; omega
    have hlen' : (optimizePassFuel f (nr :: rest)).length = (nr :: rest).length := by
      simp; omega
    have hch := ih hf' hlen'
    rw [List.chain'_cons']
    refine ⟨?_, hch⟩
    intro b hb
    rcases tryJoin_some_cases h with ⟨o, rfl⟩ | ⟨hnl, hnr, ow, ord, t, hl, hr, hfirst⟩
    · simp [IrredPair, tryJoin_exclusive_left]
    · subst hnl; subst hnr; subst hl; subst hr
      rw [optimizePassFuel_head_exclusive] at hb
      simp only [Option.mem_def, Option.some.injEq] at hb
      subst hb
      simp [IrredPair, ResourceLock.tryJoinWith, hfirst]

theorem pass_eq_of_chain (f : Nat) (q : LockQueue)
    (hch : List.Chain' IrredPair q) : optimizePassFuel f q = q := by
  induction f, q using optimizePassFuel.induct with
  | case1 q => rfl
  | case2 f => rfl
  | case3 f l => rfl
  | case4 f l r rest nl h ih =>
    exfalso
    have hir : ResourceLock.tryJoinWith l r = (l, some r) := (List.chain'_cons'.mp hch).1 r rfl
    rw [hir] at h
    simp at h
  | case5 f l r rest nl nr h ih =>
    have hir : ResourceLock.tryJoinWith l r = (l, some r) := (List.chain'_cons'.mp hch).1 r rfl
    rw [hir] at h
    obtain ⟨hnl, hnr⟩ := Prod.mk.injEq _ _ _ _ ▸ h
    obtain hnr := Option.some.injEq _ _ ▸ hnr
    subst hnl; subst hnr
    simp only [optimizePassFuel, hir]
    rw [ih]
    exact (List.chain'_cons'.mp hch).2

theorem optimizeLoop_chain : ∀ (n : Nat) (q : LockQueue), q.length < n →
    List.Chain' IrredPair (optimizeLoop n q) := by
  intro n
  induction n with
  | zero => intro q h; omega
  | succ n ih =>
    intro q h
    simp only [optimizeLoop]
    by_cases heq : (optimizePass q).length = q.length
    · simp only [heq, if_true]
      exact chain_of_pass_length_eq q.length q (Nat.le_refl _) heq
    · simp only [heq, if_false]
      apply ih
      have hle := optimizePassFuel_length_le q.length q
      have : (optimizePass q).length ≤ q.length := hle
      omega

/-- C7: queue coalescing is idempotent — applying `optimize_lock_queue` to its
own output yields the identical queue, so an already-coalesced queue is
returned unchanged. -/
theorem optimize_lock_queue_idempotent (q : LockQueue) :
    optimizeLockQueue (optimizeLockQueue q) = optimizeLockQueue q := by
  have hch : List.Chain' IrredPair (optimizeLockQueue q) :=
    optimizeLoop_chain (q.length + 1) q (by omega)
  show optimizeLoop ((optimizeLockQueue q).length + 1) (optimizeLockQueue q) = _
  simp only [optimizeLoop, optimizePass, pass_eq_of_chain _ _ hch, if_true]

/-- C3 counterexample: promoting transaction (1,1) out of the shared head it
co-owns with (1,2) produces the queue `[Exclusive (1,1), Shared {(1,2)}]` —
the new Exclusive entry is pushed in front of the residual Shared entry, not
behind it as the claim states. -/
theorem promotion_residual_behind_cex :
    promoteFront (1,1) .Exclusive [.Shared [(1,1),(1,2)] [(1,1),(1,2)]]
      = (true, [.Exclusive (1,1), .Shared [(1,2)] [(1,2)]]) ∧
    ([ResourceLock.Exclusive (1,1), .Shared [(1,2)] [(1,2)]]
      ≠ [.Shared [(1,2)] [(1,2)], .Exclusive (1,1)]) := by decide

/-- C3 amended: an in-place promotion of a co-owned Shared head puts the
promoting transaction's new Exclusive entry at the queue front, in front of
the residual Shared entry of the remaining owners (which therefore wait
behind the new exclusive). -/
theorem promotion_exclusive_preempts_residual
    (owners order : List Tid) (rest : LockQueue) (t : Tid)
    (hmem : t ∈ owners) (hres : owners.erase t ≠ []) :
    promoteFront t .Exclusive (.Shared owners order :: rest)
      = (true, .Exclusive t :: .Shared (owners.erase t) (order.erase t) :: rest) := by
  simp [promoteFront, ResourceLock.isLockedByShared, hmem, ResourceLock.toExclusive, hres]

/-- Witness for C3: the promotion theorem applied at a concrete queue. -/
theorem promotion_exclusive_preempts_residual_witness :
    promoteFront (1,1) .Exclusive [.Shared [(1,1),(1,2)] [(1,1),(1,2)], .Exclusive (9,9)]
      = (true, [.Exclusive (1,1), .Shared [(1,2)] [(1,2)], .Exclusive (9,9)]) :=
  promotion_exclusive_preempts_residual [(1,1),(1,2)] [(1,1),(1,2)]
    [.Exclusive (9,9)] (1,1) (by decide) (by decide)

/-- C4 counterexample: a Shared entry owned by {(1,1),(1,2)} followed by an
Exclusive entry for (1,1) is *not* left in place — because (1,1) is first in
the acquisition order, coalescing fuses the pair into `Exclusive (1,1)`
followed by the residual `Shared {(1,2)}`, even though (1,1) is not the sole
shared owner. -/
theorem coalesce_fuses_nonsole_cex :
    ResourceLock.tryJoinWith (.Shared [(1,1),(1,2)] [(1,1),(1,2)]) (.Exclusive (1,1))
      = (.Exclusive (1,1), some (.Shared [(1,2)] [(1,2)])) ∧
    (ResourceLock.tryJoinWith (.Shared [(1,1),(1,2)] [(1,1),(1,2)]) (.Exclusive (1,1))
      ≠ (.Shared [(1,1),(1,2)] [(1,1),(1,2)], some (.Exclusive (1,1)))) := by decide

/-- C4 amended: during coalescing, a Shared entry followed by an Exclusive
entry for `t` is left in place exactly when `t` is not the *first* owner in
the Shared entry's acquisition order; when `t` is first, the pair is fused
into `Exclusive t` (followed by a residual Shared entry whenever other
owners remain — sole ownership is not required). -/
theorem coalesce_fuse_iff_first_owner (owners order : List Tid) (t : Tid) :
    (ResourceLock.tryJoinWith (.Shared owners order) (.Exclusive t)
        = (.Shared owners order, some (.Exclusive t)) ↔ order.head? ≠ some t) ∧
    (order.head? = some t →
      ResourceLock.tryJoinWith (.Shared owners order) (.Exclusive t)
        = (.Exclusive t,
            if owners.erase t = [] then none
            else some (.Shared (owners.erase t) (order.erase t)))) := by
  constructor
  · constructor
    · intro h hfirst
      simp [ResourceLock.tryJoinWith, ResourceLock.isFirstLockedBy, hfirst,
        ResourceLock.toExclusive] at h
    · intro hfirst
      simp [ResourceLock.tryJoinWith, ResourceLock.isFirstLockedBy, hfirst]
  · intro hfirst
    simp [ResourceLock.tryJoinWith, ResourceLock.isFirstLockedBy, hfirst,
      ResourceLock.toExclusive]

/-- Witness for C4: both directions of the fusion characterization at
concrete inputs ((1,1) not first; (1,1) first with another owner left). -/
theorem coalesce_fuse_iff_first_owner_witness :
    (ResourceLock.tryJoinWith (.Shared [(1,2),(1,1)] [(1,2),(1,1)]) (.Exclusive (1,1))
      = (.Shared [(1,2),(1,1)] [(1,2),(1,1)], some (.Exclusive (1,1)))) ∧
    (ResourceLock.tryJoinWith (.Shared [(1,1),(1,2)] [(1,1),(1,2)]) (.Exclusive (1,1))
      = (.Exclusive (1,1),
          if ([(1,1),(1,2)] : List Tid).erase (1,1) = [] then none
          else some (.Shared (([(1,1),(1,2)] : List Tid).erase (1,1))
            (([(1,1),(1,2)] : List Tid).erase (1,1))))) :=
  ⟨(coalesce_fuse_iff_first_owner [(1,2),(1,1)] [(1,2),(1,1)] (1,1)).1.mpr (by decide),
   (coalesce_fuse_iff_first_owner [(1,1),(1,2)] [(1,1),(1,2)] (1,1)).2 (by decide)⟩

/-- C8 counterexample: `remove` is not the claimed idempotent
remove-from-either-set operation — after `register` puts (0,0) into the
growing set, `remove` errors (it requires the shrinking phase), and `remove`
on an absent transaction also errors. -/
theorem live_set_remove_not_idempotent_cex :
    registerTransaction ⟨∅, ∅⟩ ((0,0) : Tid) = .ok ⟨{(0,0)}, ∅⟩ ∧
    removeTransaction ⟨{(0,0)}, ∅⟩ ((0,0) : Tid) = .err ∧
    removeTransaction ⟨∅, ∅⟩ ((0,0) : Tid) = .err := by decide

/-- C8 amended: `remove(t)` succeeds exactly when `t` is in the shrinking
set (erasing it from that set only); when `t` is growing or absent it
returns an error, so `remove` after `register` fails and leaves `t`
registered. -/
theorem live_set_remove_requires_shrinking (l : LiveTransactionSet) (t : Tid) :
    (isShrinking l t = true → removeTransaction l t = .ok ⟨l.growing, l.shrinking.erase t⟩) ∧
    (isShrinking l t = false → removeTransaction l t = .err) := by
  constructor <;> intro h <;> simp [removeTransaction, h]

/-- Witness for C8: both branches of the remove characterization. -/
theorem live_set_remove_requires_shrinking_witness :
    removeTransaction ⟨∅, {(0,0)}⟩ ((0,0) : Tid)
      = .ok ⟨∅, ({(0,0)} : Finset Tid).erase (0,0)⟩ ∧
    removeTransaction ⟨{(0,0)}, ∅⟩ ((0,0) : Tid) = .err :=
  ⟨(live_set_remove_requires_shrinking ⟨∅, {(0,0)}⟩ (0,0)).1 (by decide),
   (live_set_remove_requires_shrinking ⟨{(0,0)}, ∅⟩ (0,0)).2 (by decide)⟩

/-- C9 counterexample: two Shared requests for different resources compare
Equal — the resource name is *not* used as a tie-break for equal specified
modes, contradicting the claimed mode-then-resource ordering. -/
theorem lock_request_no_resource_tiebreak_cex :
    cmpLR ⟨"b", .Shared⟩ ⟨"a", .Shared⟩ = .eq ∧
    compare "b" "a" = .gt := by
  constructor
  · rfl
  · decide

/-- C9 amended: the `Ord` on `LockRequest` compares modes only — every
Shared request sorts before every Exclusive request, two requests of the
same specified mode compare Equal (so the stable sort keeps their original
relative order), and the resource-name comparison is reached only when a
mode is `Unspecified`. -/
theorem lock_request_cmp_by_mode (a b : LockRequest) :
    (a.mode = .Shared → b.mode = .Exclusive → cmpLR a b = .lt) ∧
    (a.mode = .Exclusive → b.mode = .Shared → cmpLR a b = .gt) ∧
    (a.mode = b.mode → a.mode ≠ .Unspecified → cmpLR a b = .eq) ∧
    (a.mode = .Unspecified → cmpLR a b = compare a.record b.record) := by
  obtain ⟨ra, ma⟩ := a
  obtain ⟨rb, mb⟩ := b
  cases ma <;> cases mb <;> simp [cmpLR, partialCmp]

/-- Witness for C9: the mode-only comparison at concrete requests. -/
theorem lock_request_cmp_by_mode_witness :
    cmpLR ⟨"z", .Shared⟩ ⟨"a", .Exclusive⟩ = .lt ∧
    cmpLR ⟨"a", .Exclusive⟩ ⟨"z", .Shared⟩ = .gt ∧
    cmpLR ⟨"z", .Shared⟩ ⟨"a", .Shared⟩ = .eq :=
  ⟨(lock_request_cmp_by_mode ⟨"z", .Shared⟩ ⟨"a", .Exclusive⟩).1 rfl rfl,
   (lock_request_cmp_by_mode ⟨"a", .Exclusive⟩ ⟨"z", .Shared⟩).2.1 rfl rfl,
   (lock_request_cmp_by_mode ⟨"z", .Shared⟩ ⟨"a", .Shared⟩).2.2.1 rfl (by decide)⟩

/-- C2: evaluation of the finalization path at a state where transaction
(1,1) holds the head of resource A and waits (as a non-head entry) on
resource B.  `finalize` succeeds, yet (1,1) is still present in B's queue —
pending requests are never removed (`remove_all_pending_requests` is never
called, contradicting the comment on `LockTable::finalize_transaction`) —
and a second `finalize` returns an error instead of being idempotent. -/
theorem finalize_leaves_pending_waiter :
    serviceFinalize (1,1)
        ⟨[("A", [.Exclusive (1,1)]), ("B", [.Exclusive (1,2), .Exclusive (1,1)])],
         ⟨{(1,1),(1,2)}, ∅⟩⟩
      = (true, ⟨[("A", []), ("B", [.Exclusive (1,2), .Exclusive (1,1)])], ⟨{(1,2)}, ∅⟩⟩) ∧
    ((([("A", ([] : LockQueue)), ("B", [ResourceLock.Exclusive (1,2), .Exclusive (1,1)])] : RMap).lookup
        "B").getD []).any (fun l => l.isLockedBy (1,1)) = true ∧
    serviceFinalize (1,1)
        ⟨[("A", []), ("B", [.Exclusive (1,2), .Exclusive (1,1)])], ⟨{(1,2)}, ∅⟩⟩
      = (false, ⟨[("A", []), ("B", [.Exclusive (1,2), .Exclusive (1,1)])], ⟨{(1,2)}, ∅⟩⟩) := by
  decide

/-- C10: releasing a resource whose queue head the growing transaction `t`
does not hold returns the not-owned error, yet the strict-2PL phase switch
performed at the start of `release_lock` persists: `t` is moved from growing
to shrinking, the queues are untouched, and every subsequent `acquire_locks`
by `t` fails as not growing. -/
theorem release_unowned_still_shrinks
    (s : CentralState) (t : Tid) (r : String) (q : LockQueue)
    (hg : isGrowing s.live t = true)
    (hs : isShrinking s.live t = false)
    (hq : s.resources.lookup r = some q)
    (hh : headOwnedBy q t = false) :
    ltReleaseLock t r s
      = (some .notOwned,
         ⟨s.resources, ⟨s.live.growing.erase t, insert t s.live.shrinking⟩⟩) ∧
    ∀ reqs, acquireLocks t reqs
        ⟨s.resources, ⟨s.live.growing.erase t, insert t s.live.shrinking⟩⟩ = .notGrowing := by
  constructor
  · simp only [ltReleaseLock, hs, Bool.false_eq_true, if_false, startShrinking, hg, if_true]
    cases q with
    | nil => simp [releaseOne, hq]
    | cons front rest =>
      simp only [headOwnedBy] at hh
      simp [releaseOne, hq, hh]
  · intro reqs
    simp [acquireLocks, isGrowing]

/-- Witness for C10: the release theorem applied at a concrete state. -/
theorem release_unowned_still_shrinks_witness :
    ltReleaseLock (1,1) "Y" ⟨[("Y", [.Exclusive (1,2)])], ⟨{(1,1)}, ∅⟩⟩
      = (some .notOwned,
         ⟨[("Y", [.Exclusive (1,2)])],
          ⟨({(1,1)} : Finset Tid).erase (1,1), insert (1,1) (∅ : Finset Tid)⟩⟩) ∧
    ∀ reqs, acquireLocks (1,1) reqs
        ⟨[("Y", [.Exclusive (1,2)])],
         ⟨({(1,1)} : Finset Tid).erase (1,1), insert (1,1) (∅ : Finset Tid)⟩⟩ = .notGrowing :=
  release_unowned_still_shrinks ⟨[("Y", [.Exclusive (1,2)])], ⟨{(1,1)}, ∅⟩⟩
    (1,1) "Y" [.Exclusive (1,2)] (by decide) (by decide) (by decide) (by decide)

end Sddms

namespace Sddms

theorem mem_nodeList_iff_lookup_isSome (g : WGraph) (x : Tid) :
    x ∈ nodeList g ↔ (g.lookup x).isSome = true := by
  induction g with
  | nil => simp [nodeList]
  | cons p tl ih =>
    obtain ⟨k, v⟩ := p
    by_cases hxk : x = k
    · subst hxk
      simp [nodeList, List.lookup_cons, beq_self_eq_true]
    · simp [nodeList, List.lookup_cons, beq_false_of_ne hxk, hxk, ih]

theorem edge_lookup_isSome {g : WGraph} {u v : Tid} (h : EdgeP g u v) :
    (g.lookup u).isSome = true := by
  cases hl : g.lookup u with
  | some ns => rfl
  | none => rw [EdgeP, hl] at h; simp at h

theorem mem_insertNeighbor (d x : Tid) (ns : List Tid) :
    x ∈ insertNeighbor d ns ↔ (x ∈ ns ∨ x = d) := by
  unfold insertNeighbor
  by_cases hd : d ∈ ns
  · simp only [hd, if_true]
    constructor
    · exact Or.inl
    · rintro (h | rfl)
      · exact h
      · exact hd
  · simp [hd]

theorem addNode_lookup_getD (g : WGraph) (t x : Tid) :
    ((addNode g t).lookup x).getD [] = (g.lookup x).getD [] := by
  unfold addNode
  split
  · rfl
  · rename_i h
    by_cases hx : x = t
    · subst hx
      cases hl : g.lookup x with
      | some q => rw [hl] at h; simp at h
      | none => simp [List.lookup_cons, beq_self_eq_true, hl]
    · simp [List.lookup_cons, beq_false_of_ne hx]

theorem addNode_lookup_isSome (g : WGraph) (t x : Tid) :
    ((addNode g t).lookup x).isSome = true ↔ (x = t ∨ (g.lookup x).isSome = true) := by
  unfold addNode
  split
  · rename_i h
    constructor
    · exact Or.inr
    · rintro (rfl | hx)
      · exact h
      · exact hx
  · by_cases hx : x = t
    · subst hx
      simp [List.lookup_cons, beq_self_eq_true]
    · simp [List.lookup_cons, beq_false_of_ne hx, hx]

theorem addNode_edge_iff (g : WGraph) (t u v : Tid) :
    EdgeP (addNode g t) u v ↔ EdgeP g u v := by
  unfold EdgeP
  rw [addNode_lookup_getD]

theorem addEdgeAux_lookup (g : WGraph) (s d x : Tid) :
    (addEdgeAux g s d).lookup x
      = (g.lookup x).map (fun ns => if x = s then insertNeighbor d ns else ns) := by
  induction g with
  | nil => simp [addEdgeAux]
  | cons p tl ih =>
    obtain ⟨k, v⟩ := p
    simp only [addEdgeAux, List.map_cons] at ih ⊢
    by_cases hks : k = s
    · subst hks
      by_cases hxk : x = k
      · subst hxk
        simp [List.lookup_cons, beq_self_eq_true]
      · simp [List.lookup_cons, beq_false_of_ne hxk, ih]
    · by_cases hxk : x = k
      · subst hxk
        simp [List.lookup_cons, beq_self_eq_true, hks]
      · simp [List.lookup_cons, beq_false_of_ne hxk, ih, hks]

theorem insertEdge_lookup_isSome (g : WGraph) (s d x : Tid) :
    ((insertEdge g s d).lookup x).isSome = true
      ↔ (x = s ∨ x = d ∨ (g.lookup x).isSome = true) := by
  unfold insertEdge
  rw [addEdgeAux_lookup]
  have hmap : ∀ (o : Option (List Tid)) (f : List Tid → List Tid),
      (Option.map f o).isSome = o.isSome := by
    intro o f
    cases o <;> rfl
  rw [hmap]
  rw [addNode_lookup_isSome, addNode_lookup_isSome]
  tauto

theorem insertEdge_lookup_getD (g : WGraph) (s d x : Tid) :
    ((insertEdge g s d).lookup x).getD []
      = if x = s then insertNeighbor d ((g.lookup s).getD []) else (g.lookup x).getD [] := by
  unfold insertEdge
  rw [addEdgeAux_lookup]
  by_cases hxs : x = s
  · subst hxs
    rw [if_pos rfl]
    have hsome : ((addNode (addNode g x) d).lookup x).isSome = true := by
      rw [addNode_lookup_isSome, addNode_lookup_isSome]
      tauto
    cases hl : (addNode (addNode g x) d).lookup x with
    | none => rw [hl] at hsome; simp at hsome
    | some ns =>
      have hns : ns = (g.lookup x).getD [] := by
        have h2 := addNode_lookup_getD (addNode g x) d x
        rw [hl] at h2
        simp only [Option.getD_some] at h2
        rw [h2, addNode_lookup_getD]
      simp [hns]
  · rw [if_neg hxs]
    have h2 := addNode_lookup_getD (addNode g s) d x
    have h3 := addNode_lookup_getD g s x
    cases hl : (addNode (addNode g s) d).lookup x with
    | none =>
      rw [hl] at h2
      simp only [Option.getD_none] at h2
      simp [← h3, ← h2]
    | some ns =>
      rw [hl] at h2
      simp only [Option.getD_some] at h2
      simp [hxs, h2, ← h3]

theorem insertEdge_edge_iff (g : WGraph) (s d u v : Tid) :
    EdgeP (insertEdge g s d) u v ↔ (EdgeP g u v ∨ (u = s ∧ v = d)) := by
  unfold EdgeP
  rw [insertEdge_lookup_getD]
  by_cases hus : u = s
  · subst hus
    rw [if_pos rfl, mem_insertNeighbor]
    tauto
  · rw [if_neg hus]
    simp [hus]

theorem graphWF_nil : GraphWF [] := by
  intro u v h
  rw [EdgeP] at h
  simp [List.lookup] at h

theorem graphWF_addNode {g : WGraph} (h : GraphWF g) (t : Tid) :
    GraphWF (addNode g t) := by
  intro u v he
  rw [addNode_edge_iff] at he
  rw [addNode_lookup_isSome]
  exact Or.inr (h u v he)

theorem graphWF_insertEdge {g : WGraph} (h : GraphWF g) (s d : Tid) :
    GraphWF (insertEdge g s d) := by
  intro u v he
  rw [insertEdge_edge_iff] at he
  rw [insertEdge_lookup_isSome]
  rcases he with he | ⟨rfl, rfl⟩
  · exact Or.inr (Or.inr (h u v he))
  · exact Or.inr (Or.inl rfl)

theorem graphWF_foldl_insertEdge (l : List Tid) (t : Tid) :
    ∀ {g : WGraph}, GraphWF g → GraphWF (l.foldl (fun ga w => insertEdge ga t w) g) := by
  induction l with
  | nil => intro g h; exact h
  | cons w rest ih =>
    intro g h
    exact ih (graphWF_insertEdge h t w)

theorem graphWF_foldl_insertEdge_into (l : List Tid) (o : Tid) :
    ∀ {g : WGraph}, GraphWF g → GraphWF (l.foldl (fun gb lo => insertEdge gb o lo) g) := by
  induction l with
  | nil => intro g h; exact h
  | cons w rest ih =>
    intro g h
    exact ih (graphWF_insertEdge h o w)

theorem graphWF_foldl_addNode (l : List Tid) :
    ∀ {g : WGraph}, GraphWF g → GraphWF (l.foldl addNode g) := by
  induction l with
  | nil => intro g h; exact h
  | cons w rest ih =>
    intro g h
    exact ih (graphWF_addNode h w)

theorem graphWF_graphAddQueue (q : LockQueue) :
    ∀ (g : WGraph) (last : Option (List Tid)), GraphWF g →
      GraphWF (graphAddQueue g last q) := by
  induction q with
  | nil => intro g last h; exact h
  | cons lock rest ih =>
    intro g last h
    simp only [graphAddQueue]
    apply ih
    have h1 : GraphWF ((lockOwners lock ++ last.getD []).foldl addNode g) :=
      graphWF_foldl_addNode _ h
    generalize ((lockOwners lock ++ last.getD []).foldl addNode g) = g1 at h1
    clear h
    induction lockOwners lock generalizing g1 with
    | nil => exact h1
    | cons o os iho =>
      exact iho _ (graphWF_foldl_insertEdge_into _ o h1)

theorem graphWF_construct (m : RMap) : GraphWF (construct m) := by
  rw [construct]
  have hgen : ∀ (l : RMap) (g : WGraph), GraphWF g →
      GraphWF (l.foldl (fun g p => graphAddQueue g none p.2) g) := by
    intro l
    induction l with
    | nil => intro g h; exact h
    | cons p rest ih =>
      intro g h
      exact ih _ (graphWF_graphAddQueue _ _ _ h)
  exact hgen m [] graphWF_nil

theorem graphWF_hypGraph (m : RMap) (t : Tid) (r : String) :
    GraphWF (hypGraph m t r) := by
  rw [hypGraph]
  exact graphWF_foldl_insertEdge _ _ (graphWF_construct m)

end Sddms

namespace Sddms

theorem dfsStep_of_true (f : Tid → Finset Tid → Bool × Finset Tid)
    (ns : List Tid) (acc : Bool × Finset Tid) (h : acc.1 = true) :
    dfsStep f ns acc = acc := by
  induction ns with
  | nil => rfl
  | cons n rest ih =>
    simp only [dfsStep, h, if_true]
    exact ih

theorem dfsStep_mono (f : Tid → Finset Tid → Bool × Finset Tid)
    (Hf : ∀ n v, v ⊆ (f n v).2) :
    ∀ (ns : List Tid) (acc : Bool × Finset Tid), acc.2 ⊆ (dfsStep f ns acc).2 := by
  intro ns
  induction ns with
  | nil => intro acc; exact Finset.Subset.refl _
  | cons n rest ih =>
    intro acc
    simp only [dfsStep]
    cases hb : acc.1 with
    | true =>
      simp only [if_true]
      exact ih acc
    | false =>
      simp only [Bool.false_eq_true, if_false]
      exact (Hf n acc.2).trans (ih _)

theorem dfsVisit_mono (g : WGraph) :
    ∀ (fuel : Nat) (current : Tid) (visited stk : Finset Tid),
      visited ⊆ (dfsVisit g fuel current visited stk).2 := by
  intro fuel
  induction fuel with
  | zero =>
    intro current visited stk
    exact Finset.Subset.refl _
  | succ fuel ih =>
    intro current visited stk
    simp only [dfsVisit]
    split
    · exact Finset.Subset.refl _
    · split
      · exact Finset.Subset.refl _
      · refine (Finset.subset_insert current visited).trans ?_
        exact dfsStep_mono (fun n v => dfsVisit g fuel n v (insert current stk))
          (fun n v => ih n v (insert current stk)) ((g.lookup current).getD [])
          (false, insert current visited)

theorem dfsStep_true_elim (f : Tid → Finset Tid → Bool × Finset Tid)
    (Hmono : ∀ n v, v ⊆ (f n v).2) :
    ∀ (ns : List Tid) (acc : Bool × Finset Tid),
      (dfsStep f ns acc).1 = true →
      acc.1 = true ∨ ∃ n ∈ ns, ∃ v, acc.2 ⊆ v ∧ (f n v).1 = true := by
  intro ns
  induction ns with
  | nil => intro acc h; exact Or.inl h
  | cons n rest ih =>
    intro acc h
    simp only [dfsStep] at h
    cases hb : acc.1 with
    | true => exact Or.inl rfl
    | false =>
      rw [hb] at h
      simp only [Bool.false_eq_true, if_false] at h
      rcases ih _ h with h1 | ⟨n', hn', v, hs, ht⟩
      · exact Or.inr ⟨n, by simp, acc.2, Finset.Subset.refl _, h1⟩
      · exact Or.inr ⟨n', by simp [hn'], v, (Hmono n acc.2).trans hs, ht⟩

theorem sdiff_insert_card_lt {s v : Finset Tid} {t : Tid} (ht : t ∈ s) (hv : t ∉ v) :
    (s \ insert t v).card < (s \ v).card := by
  apply Finset.card_lt_card
  constructor
  · intro x hx
    simp only [Finset.mem_sdiff, Finset.mem_insert] at hx ⊢
    exact ⟨hx.1, fun hxv => hx.2 (Or.inr hxv)⟩
  · intro hsub
    have hts : t ∈ s \ v := by simp [ht, hv]
    have := hsub hts
    simp at this

theorem dfsVisit_sound (g : WGraph) (hwf : GraphWF g) :
    ∀ (fuel : Nat) (current : Tid) (visited stk : Finset Tid),
      (g.lookup current).isSome = true →
      (∀ x ∈ stk, Relation.TransGen (EdgeP g) x current) →
      (nodesF g \ visited).card < fuel →
      (dfsVisit g fuel current visited stk).1 = true → GCycle g := by
  intro fuel
  induction fuel with
  | zero =>
    intro current visited stk _ _ hcard _
    omega
  | succ fuel ih =>
    intro current visited stk hcur hstk hcard htrue
    by_cases hinstk : current ∈ stk
    · exact ⟨current, hstk current hinstk⟩
    · by_cases hinv : current ∈ visited
      · simp [dfsVisit, hinstk, hinv] at htrue
      · simp only [dfsVisit, hinstk, hinv, if_false] at htrue
        have Hmono : ∀ n v, v ⊆ (dfsVisit g fuel n v (insert current stk)).2 :=
          fun n v => dfsVisit_mono g fuel n v _
        rcases dfsStep_true_elim _ Hmono _ _ htrue with hacc | ⟨n, hn, v, hsub, htr⟩
        · simp at hacc
        · have hedge : EdgeP g current n := hn
          apply ih n v (insert current stk) (hwf _ _ hedge) ?_ ?_ htr
          · intro x hx
            rcases Finset.mem_insert.mp hx with rfl | hx'
            · exact Relation.TransGen.single hedge
            · exact (hstk x hx').tail hedge
          · have hc1 : current ∈ nodesF g := by
              rw [nodesF, List.mem_toFinset]
              exact (mem_nodeList_iff_lookup_isSome g current).mpr hcur
            have hlt : (nodesF g \ insert current visited).card < (nodesF g \ visited).card :=
              sdiff_insert_card_lt hc1 hinv
            have hle : (nodesF g \ v).card ≤ (nodesF g \ insert current visited).card :=
              Finset.card_le_card (Finset.sdiff_subset_sdiff (Finset.Subset.refl _) hsub)
            omega

theorem dfsStep_false_elim (f : Tid → Finset Tid → Bool × Finset Tid)
    (Q : Finset Tid → Prop) (Good : Tid → Prop) :
    ∀ (ns : List Tid) (acc : Bool × Finset Tid),
      (∀ n ∈ ns, ∀ v, Q v → (f n v).1 = false →
        Q (f n v).2 ∧ v ⊆ (f n v).2 ∧ n ∈ (f n v).2 ∧ Good n) →
      acc.1 = false → Q acc.2 → (dfsStep f ns acc).1 = false →
      Q (dfsStep f ns acc).2 ∧ acc.2 ⊆ (dfsStep f ns acc).2 ∧
        ∀ n ∈ ns, n ∈ (dfsStep f ns acc).2 ∧ Good n := by
  intro ns
  induction ns with
  | nil =>
    intro acc _ ha hQ _
    refine ⟨hQ, Finset.Subset.refl _, ?_⟩
    intro n hn
    simp at hn
  | cons n rest ih =>
    intro acc Hf ha hQ hres
    simp only [dfsStep, ha, Bool.false_eq_true, if_false] at hres ⊢
    have ha' : (f n acc.2).1 = false := by
      cases hb : (f n acc.2).1 with
      | false => rfl
      | true =>
        rw [dfsStep_of_true f rest _ hb] at hres
        rw [hb] at hres
        exact absurd hres (by simp)
    obtain ⟨hQ', hsub', hmem', hgood⟩ := Hf n (by simp) acc.2 hQ ha'
    obtain ⟨hQf, hsubf, hrest⟩ :=
      ih (f n acc.2) (fun n' hn' => Hf n' (by simp [hn'])) ha' hQ' hres
    refine ⟨hQf, hsub'.trans hsubf, ?_⟩
    intro x hx
    rcases List.mem_cons.mp hx with rfl | hx'
    · exact ⟨hsubf hmem', hgood⟩
    · exact hrest x hx'

theorem not_reachesCycle_of_neighbors (g : WGraph) (c : Tid)
    (h : ∀ n, EdgeP g c n → ¬ ReachesCycle g n) : ¬ ReachesCycle g c := by
  rintro ⟨v, hrt, hcyc⟩
  rcases Relation.ReflTransGen.cases_head hrt with rfl | ⟨b, hcb, hbv⟩
  · obtain ⟨b, hcb, hbc⟩ := Relation.TransGen.head'_iff.mp hcyc
    exact h b hcb ⟨c, hbc, hcyc⟩
  · exact h b hcb ⟨v, hbv, hcyc⟩

theorem dfsVisit_complete (g : WGraph) :
    ∀ (fuel : Nat) (current : Tid) (visited stk v' : Finset Tid),
      (∀ x ∈ visited, x ∉ stk → ¬ ReachesCycle g x) →
      dfsVisit g fuel current visited stk = (false, v') →
      visited ⊆ v' ∧ current ∈ v' ∧ current ∉ stk ∧
        ∀ x ∈ v', x ∉ stk → ¬ ReachesCycle g x := by
  intro fuel
  induction fuel with
  | zero =>
    intro current visited stk v' _ h
    simp [dfsVisit] at h
  | succ fuel ih =>
    intro current visited stk v' Hinv heq
    by_cases hstk : current ∈ stk
    · simp [dfsVisit, hstk] at heq
    · by_cases hv : current ∈ visited
      · simp only [dfsVisit, hstk, hv, if_false, if_true, Prod.mk.injEq] at heq
        obtain ⟨-, rfl⟩ := heq
        exact ⟨Finset.Subset.refl _, hv, hstk, Hinv⟩
      · simp only [dfsVisit, hstk, hv, if_false] at heq
        have h1 : (dfsStep (fun n v => dfsVisit g fuel n v (insert current stk))
            ((g.lookup current).getD []) (false, insert current visited)).1 = false := by
          rw [heq]
        have h2 : (dfsStep (fun n v => dfsVisit g fuel n v (insert current stk))
            ((g.lookup current).getD []) (false, insert current visited)).2 = v' := by
          rw [heq]
        have Hf : ∀ n ∈ (g.lookup current).getD [], ∀ v,
            (∀ x ∈ v, x ∉ insert current stk → ¬ ReachesCycle g x) →
            (dfsVisit g fuel n v (insert current stk)).1 = false →
            (∀ x ∈ (dfsVisit g fuel n v (insert current stk)).2,
                x ∉ insert current stk → ¬ ReachesCycle g x) ∧
              v ⊆ (dfsVisit g fuel n v (insert current stk)).2 ∧
              n ∈ (dfsVisit g fuel n v (insert current stk)).2 ∧
              n ∉ insert current stk := by
          intro n hn v hQ hfalse
          have hpair : dfsVisit g fuel n v (insert current stk)
              = (false, (dfsVisit g fuel n v (insert current stk)).2) := by
            rw [← hfalse]
          obtain ⟨hsub, hmem, hnstk, hinv⟩ := ih n v (insert current stk) _ hQ hpair
          exact ⟨hinv, hsub, hmem, hnstk⟩
        have hQ0 : ∀ x ∈ insert current visited, x ∉ insert current stk →
            ¬ ReachesCycle g x := by
          intro x hx hxs
          rcases Finset.mem_insert.mp hx with rfl | hx'
          · simp at hxs
          · have hxns : x ∉ stk := fun hc => hxs (Finset.mem_insert_of_mem hc)
            exact Hinv x hx' hxns
        obtain ⟨hQf, hsubf, hns⟩ :=
          dfsStep_false_elim _ (fun v => ∀ x ∈ v, x ∉ insert current stk → ¬ ReachesCycle g x)
            (fun n => n ∉ insert current stk) _ _ Hf rfl hQ0 h1
        rw [h2] at hQf hsubf hns
        have hcurv : current ∈ v' := hsubf (Finset.mem_insert_self _ _)
        have hcurNR : ¬ ReachesCycle g current := by
          apply not_reachesCycle_of_neighbors
          intro n hedge
          obtain ⟨hnv, hnstk⟩ := hns n hedge
          exact hQf n hnv hnstk
        refine ⟨(Finset.subset_insert _ _).trans hsubf, hcurv, hstk, ?_⟩
        intro x hx hxstk
        by_cases hxc : x = current
        · subst hxc
          exact hcurNR
        · have : x ∉ insert current stk := by
            simp [Finset.mem_insert, hxc, hxstk]
          exact hQf x hx this

theorem dfsTop_sound (g : WGraph) (hwf : GraphWF g) :
    ∀ (ns : List Tid) (visited : Finset Tid),
      (∀ n ∈ ns, (g.lookup n).isSome = true) → dfsTop g ns visited = true → GCycle g := by
  intro ns
  induction ns with
  | nil =>
    intro visited _ h
    simp [dfsTop] at h
  | cons n rest ih =>
    intro visited hns h
    simp only [dfsTop] at h
    by_cases hv : n ∈ visited
    · rw [if_pos hv] at h
      exact ih _ (fun x hx => hns x (by simp [hx])) h
    · rw [if_neg hv] at h
      cases hres : dfsVisit g (dfsFuel g) n visited ∅ with
      | mk b v' =>
        rw [hres] at h
        cases b with
        | true =>
          apply dfsVisit_sound g hwf (dfsFuel g) n visited ∅ (hns n (by simp)) (by simp) ?_
            (by rw [hres])
          calc (nodesF g \ visited).card
              ≤ (nodesF g).card := Finset.card_le_card (Finset.sdiff_subset)
            _ ≤ (nodeList g).length := List.toFinset_card_le _
            _ < dfsFuel g := by simp [dfsFuel]
        | false =>
          exact ih v' (fun x hx => hns x (by simp [hx])) h
  
theorem dfsTop_complete (g : WGraph) :
    ∀ (ns : List Tid) (visited : Finset Tid),
      (∀ x ∈ visited, ¬ ReachesCycle g x) → dfsTop g ns visited = false →
      ∀ n ∈ ns, ¬ ReachesCycle g n := by
  intro ns
  induction ns with
  | nil =>
    intro visited _ _ n hn
    simp at hn
  | cons n rest ih =>
    intro visited Hinv h
    simp only [dfsTop] at h
    by_cases hv : n ∈ visited
    · rw [if_pos hv] at h
      intro x hx
      rcases List.mem_cons.mp hx with rfl | hx'
      · exact Hinv x hv
      · exact ih visited Hinv h x hx'
    · rw [if_neg hv] at h
      cases hres : dfsVisit g (dfsFuel g) n visited ∅ with
      | mk b v' =>
        rw [hres] at h
        cases b with
        | true => simp at h
        | false =>
          obtain ⟨hsub, hmem, -, hinv⟩ :=
            dfsVisit_complete g (dfsFuel g) n visited ∅ v'
              (fun x hx _ => Hinv x hx) hres
          have hinv' : ∀ x ∈ v', ¬ ReachesCycle g x := fun x hx => hinv x hx (by simp)
          intro x hx
          rcases List.mem_cons.mp hx with rfl | hx'
          · exact hinv' x hmem
          · exact ih v' hinv' h x hx'

theorem hasCycle_iff_gcycle (g : WGraph) (hwf : GraphWF g) :
    hasCycle g = true ↔ GCycle g := by
  constructor
  · intro h
    exact dfsTop_sound g hwf (nodeList g) ∅
      (fun n hn => (mem_nodeList_iff_lookup_isSome g n).mp hn) h
  · intro hg
    by_contra hfalse
    have hf : hasCycle g = false := by
      revert hfalse
      cases hasCycle g <;> simp
    have hall := dfsTop_complete g (nodeList g) ∅ (by simp) hf
    obtain ⟨v, hv⟩ := hg
    have hsrc : (g.lookup v).isSome = true := by
      obtain ⟨b, hvb, -⟩ := Relation.TransGen.head'_iff.mp hv
      exact edge_lookup_isSome hvb
    exact hall v ((mem_nodeList_iff_lookup_isSome g v).mpr hsrc)
      ⟨v, Relation.ReflTransGen.refl, hv⟩

end Sddms

namespace Sddms

/-- C5 counterexample: in the queue-map `mC5` the wait-for graph already has
the cycle (1,1) ⇄ (1,2); when the fresh transaction (1,3) requests the free
resource R, `would_cause_deadlock` returns true even though no cycle
involves (1,3) (it acquires no hypothetical edges, and is not even a node of
the graph), so the check is not equivalent to "a cycle involving t". -/
theorem would_deadlock_without_requester_cycle_cex :
    wouldCauseDeadlock mC5 (1,3) "R" = true ∧
    ¬ Relation.TransGen (EdgeP (hypGraph mC5 (1,3) "R")) (1,3) (1,3) := by
  constructor
  · decide
  · intro hcyc
    have hlook : (hypGraph mC5 (1,3) "R").lookup (1,3) = none := by decide
    obtain ⟨b, hvb, -⟩ := Relation.TransGen.head'_iff.mp hcyc
    rw [EdgeP, hlook] at hvb
    simp at hvb

/-- C5 amended: `would_cause_deadlock(t, r)` returns true if and only if the
wait-for graph extended with the hypothetical edges `t → v` (for every owner
`v` of every entry in `r`'s queue) contains *some* directed cycle — not
necessarily one involving `t`; a pre-existing cycle among other transactions
also triggers rejection.  The hypothesis records the Rust precondition that
`r` is present in the queue map (the code unwraps the lookup). -/
theorem would_cause_deadlock_iff_cycle (m : RMap) (t : Tid) (r : String)
    (_hres : (m.lookup r).isSome = true) :
    (wouldCauseDeadlock m t r = true ↔ GCycle (hypGraph m t r)) :=
  hasCycle_iff_gcycle _ (graphWF_hypGraph m t r)

/-- Witness for C5: the deadlock-check equivalence at the concrete scenario
map `mDead`. -/
theorem would_cause_deadlock_iff_cycle_witness :
    ((mDead.lookup "Y").isSome = true) ∧
    (wouldCauseDeadlock mDead (1,1) "Y" = true ↔ GCycle (hypGraph mDead (1,1) "Y")) :=
  ⟨by decide, would_cause_deadlock_iff_cycle mDead (1,1) "Y" (by decide)⟩

theorem acquireStep_deadlocked_eq {t : Tid} {req : LockRequest} {m0 mf : RMap}
    (h : acquireStep t req m0 = .deadlocked mf) :
    mf = addNewResource m0 req.record := by
  simp only [acquireStep] at h
  split at h
  · simp at h
  · simp at h
  · split at h
    · simp at h
    · split at h
      · simp only [StepOut.deadlocked.injEq] at h
        exact h.symm
      · split at h <;> simp at h

theorem addNewResource_lookup_self (m : RMap) (r : String) :
    ((addNewResource m r).lookup r).getD [] = (m.lookup r).getD [] := by
  unfold addNewResource
  split
  · rfl
  · rename_i h
    cases hl : m.lookup r with
    | some q => rw [hl] at h; simp at h
    | none => simp [List.lookup_cons, beq_self_eq_true, hl]

theorem addNewResource_lookup_other (m : RMap) (r r' : String) (h : r' ≠ r) :
    (addNewResource m r).lookup r' = m.lookup r' := by
  unfold addNewResource
  split
  · rfl
  · simp [List.lookup_cons, beq_false_of_ne h]

/-- C6: whenever the request loop of `acquire_locks` returns `Deadlocked` on
a request for resource `r`, the state it returns is exactly the state after
the earlier requests of the batch (plus at most the creation of an empty
queue for a previously unknown `r`): `t` has not been enqueued on `r`, `r`'s
queue entries are exactly what they were before the request, and every other
resource's queue is untouched, while the effects of the earlier requests are
retained. -/
theorem deadlocked_request_leaves_no_partial_state
    (t : Tid) (reqs : List LockRequest) (m0 mf : RMap) (r : String)
    (h : processRequests t reqs m0 = .deadlocked r mf) :
    ∃ pre req rest mpre,
      reqs = pre ++ req :: rest ∧ req.record = r ∧
      processRequests t pre m0 = .ok mpre ∧
      acquireStep t req mpre = .deadlocked mf ∧
      mf = addNewResource mpre r ∧
      (mf.lookup r).getD [] = (mpre.lookup r).getD [] ∧
      (∀ r', r' ≠ r → mf.lookup r' = mpre.lookup r') := by
  induction reqs generalizing m0 with
  | nil => simp [processRequests] at h
  | cons req0 rest0 ih =>
    simp only [processRequests] at h
    cases hstep : acquireStep t req0 m0 with
    | proceed m' =>
      rw [hstep] at h
      obtain ⟨pre, req, rest, mpre, h1, h2, h3, h4, h5, h6, h7⟩ := ih m' h
      exact ⟨req0 :: pre, req, rest, mpre, by simp [h1], h2,
        by simp [processRequests, hstep, h3], h4, h5, h6, h7⟩
    | deadlocked m' =>
      rw [hstep] at h
      simp only [BatchOut.deadlocked.injEq] at h
      obtain ⟨hr, hm⟩ := h
      subst hr
      subst hm
      have hmf := acquireStep_deadlocked_eq hstep
      refine ⟨[], req0, rest0, m0, rfl, rfl, by simp [processRequests], hstep, hmf, ?_, ?_⟩
      · rw [hmf]
        exact addNewResource_lookup_self m0 _
      · intro r' hr'
        rw [hmf]
        exact addNewResource_lookup_other m0 _ r' hr'
    | panicked =>
      rw [hstep] at h
      simp at h

/-- Witness for C6: the deadlock scenario — (1,1) holds X, (1,2) holds Y and
waits on X; (1,1)'s request for Y is refused as Deadlocked with the queue
map returned unchanged. -/
theorem deadlocked_request_leaves_no_partial_state_witness :
    ∃ pre req rest mpre,
      ([⟨"Y", .Exclusive⟩] : List LockRequest) = pre ++ req :: rest ∧
      req.record = "Y" ∧
      processRequests (1,1) pre mDead = .ok mpre ∧
      acquireStep (1,1) req mpre = .deadlocked mDead ∧
      mDead = addNewResource mpre "Y" ∧
      (mDead.lookup "Y").getD [] = (mpre.lookup "Y").getD [] ∧
      (∀ r', r' ≠ "Y" → mDead.lookup r' = mpre.lookup r') :=
  deadlocked_request_leaves_no_partial_state (1,1) [⟨"Y", .Exclusive⟩] mDead mDead "Y"
    (by decide)

end Sddms

namespace Sddms.Verifier

theorem verifyStep_snd (m : LiveMap) (a : VAction) :
    (verifyStep m a).2 = hasConflictsB (checkedLive m a) := by
  obtain ⟨s, c, x, k⟩ := a
  cases k with
  | beginTxn => rfl
  | commitTxn => rfl
  | rollbackTxn => rfl
  | query rs ws =>
    by_cases ht : hasTid m (tidOf ⟨s, c, x, .query rs ws⟩)
    · simp [verifyStep, checkedLive, ht]
    · simp [verifyStep, checkedLive, ht]

theorem liveAfter_cons (m : LiveMap) (a : VAction) (h : List VAction) :
    liveAfter m (a :: h) = liveAfter (verifyStep m a).1 h := by
  simp [liveAfter]

theorem verifyGo_eq_true_iff (h : List VAction) :
    ∀ m, verifyGo m h = true ↔
      ∃ pre a post, h = pre ++ a :: post ∧
        (verifyStep (liveAfter m pre) a).2 = true := by
  induction h with
  | nil =>
    intro m
    simp only [verifyGo, Bool.false_eq_true, false_iff]
    rintro ⟨pre, a, post, heq, -⟩
    exact List.not_mem_nil a (heq ▸ List.mem_append_right pre (List.mem_cons_self a post))
  | cons a0 rest ih =>
    intro m
    simp only [verifyGo, Bool.or_eq_true]
    constructor
    · rintro (hc | hrest)
      · exact ⟨[], a0, rest, rfl, by simpa [liveAfter] using hc⟩
      · obtain ⟨pre, a, post, heq, hcond⟩ := (ih _).mp hrest
        refine ⟨a0 :: pre, a, post, by simp [heq], ?_⟩
        rw [liveAfter_cons]
        exact hcond
    · rintro ⟨pre, a, post, heq, hcond⟩
      cases pre with
      | nil =>
        simp only [List.nil_append, List.cons.injEq] at heq
        obtain ⟨rfl, rfl⟩ := heq
        exact Or.inl (by simpa [liveAfter] using hcond)
      | cons p ps =>
        simp only [List.cons_append, List.cons.injEq] at heq
        obtain ⟨rfl, heq'⟩ := heq
        refine Or.inr ((ih _).mpr ⟨ps, a, post, heq', ?_⟩)
        rw [liveAfter_cons] at hcond
        exact hcond

/-- C1 amended: the verifier is a live-overlap detector, not a cycle
detector — `verify_action_history` reports a serializability violation if
and only if, after applying some action of the sorted log to the live map,
two distinct simultaneously-live transactions have conflicting accumulated
table sets (read∩write, write∩read or write∩write nonempty). -/
theorem verifier_reports_iff_live_overlap (h : List VAction) :
    reportsViolation h = true ↔
      ∃ pre a post, h = pre ++ a :: post ∧
        ∃ p ∈ checkedLive (liveAfter [] pre) a, ∃ q ∈ checkedLive (liveAfter [] pre) a,
          p.1 ≠ q.1 ∧ conflictsWithOther p.2 q.2 = true := by
  rw [reportsViolation, verifyGo_eq_true_iff]
  constructor
  · rintro ⟨pre, a, post, heq, hcond⟩
    rw [verifyStep_snd] at hcond
    rw [hasConflictsB] at hcond
    simp only [List.any_eq_true, Bool.and_eq_true, decide_eq_true_eq] at hcond
    obtain ⟨p, hp, q, hq, hne, hconf⟩ := hcond
    exact ⟨pre, a, post, heq, p, hp, q, hq, hne, hconf⟩
  · rintro ⟨pre, a, post, heq, p, hp, q, hq, hne, hconf⟩
    refine ⟨pre, a, post, heq, ?_⟩
    rw [verifyStep_snd, hasConflictsB]
    simp only [List.any_eq_true, Bool.and_eq_true, decide_eq_true_eq]
    exact ⟨p, hp, q, hq, hne, hconf⟩

/-- C1 counterexample: the four-action history `hC1` — t1 begins and reads R,
t2 begins and writes R — has an acyclic conflict graph (its only edge is
t1 → t2), yet the verifier reports a serializability violation, refuting
"violation iff the conflict graph has a cycle" and in particular "acyclic
implies reported conflict-free". -/
theorem verifier_flags_acyclic_history_cex :
    reportsViolation hC1 = true ∧
    ¬ ∃ v, Relation.TransGen (fun u w => specEdgeB hC1 u w = true) v v := by
  have hedge : ∀ u w, specEdgeB hC1 u w = true → u = (1,1,1) ∧ w = (1,2,2) := by
    intro u w hh
    rw [specEdgeB, List.any_eq_true] at hh
    obtain ⟨p, hp, hpred⟩ := hh
    have hop : ordPairs hC1
        = [(aB1, aQ1), (aB1, aB2), (aB1, aQ2), (aQ1, aB2), (aQ1, aQ2), (aB2, aQ2)] := by
      decide
    rw [hop] at hp
    simp only [List.mem_cons, List.not_mem_nil, or_false] at hp
    rcases hp with rfl | rfl | rfl | rfl | rfl | rfl
    · rw [show isQueryConflict aB1 aQ1 = false from rfl] at hpred
      simp at hpred
    · rw [show isQueryConflict aB1 aB2 = false from rfl] at hpred
      simp at hpred
    · rw [show isQueryConflict aB1 aQ2 = false from rfl] at hpred
      simp at hpred
    · rw [show isQueryConflict aQ1 aB2 = false from rfl] at hpred
      simp at hpred
    · rw [show isQueryConflict aQ1 aQ2 = true from by decide] at hpred
      simp only [Bool.and_true, Bool.and_eq_true, decide_eq_true_eq] at hpred
      exact ⟨hpred.1.1.symm, hpred.1.2.symm⟩
    · rw [show isQueryConflict aB2 aQ2 = false from rfl] at hpred
      simp at hpred
  constructor
  · decide
  · rintro ⟨v, hv⟩
    obtain ⟨b, hvb, hbv⟩ := Relation.TransGen.head'_iff.mp hv
    obtain ⟨rfl, rfl⟩ := hedge _ _ hvb
    rcases Relation.ReflTransGen.cases_head hbv with heq | ⟨c, hbc, -⟩
    · exact absurd heq (by decide)
    · exact absurd (hedge _ _ hbc).1 (by decide)

end Sddms.Verifier
